import Mathlib

set_option maxRecDepth 8192

/-!
Verification development for the Plan-and-Solve agent
(`code/chapter4/Plan_and_solve.py`): a Planner that extracts an ordered
list of step strings from a fenced code block in a model response, and an
Executor that runs each step with a bounded tool-resolution loop.

The Python source is shallowly embedded below.  The Completion Engine
(`llm_client.HelloAgentsLLM.think`) is modelled as a function from a
conversation to an optional completion string.  Python values produced by
`json.loads` / `ast.literal_eval` are modelled by the inductive `PyValue`,
and those two standard-library parsers are modelled by executable
recursive-descent parsers over the literal subset the program manipulates
(strings, integers, booleans, `null`/`None`, arrays/lists, objects/dicts;
floats, tuples, sets, `\u` escapes and implicit string concatenation are
outside the modelled subset).
-/

/-- Delimiter characters, written via code points so that every quoting
character is named explicitly. -/
def quoteChar : Char := Char.ofNat 34

/-- Single-quote character (Python string literals). -/
def squoteChar : Char := Char.ofNat 39

/-- Opening curly brace character. -/
def lbraceChar : Char := Char.ofNat 123

/-- Closing curly brace character. -/
def rbraceChar : Char := Char.ofNat 125

/-- Backtick character, the fence-marker character. -/
def backtickChar : Char := Char.ofNat 96

/-- Backslash character, the escape character of string literals. -/
def backslashChar : Char := Char.ofNat 92

/-- Python values, as produced by `json.loads` / `ast.literal_eval` on the
literal subset the program manipulates. -/
inductive PyValue where
  | str : String → PyValue
  | int : Int → PyValue
  | bool : Bool → PyValue
  | none : PyValue
  | list : List PyValue → PyValue
  | dict : List (PyValue × PyValue) → PyValue

/-- Equality of dict keys.  Python dict keys must be hashable, so within
the modelled literal subset keys are scalars (strings, integers, booleans,
`None`); containers never occur as keys. -/
def pyKeyEq : PyValue → PyValue → Bool
  | PyValue.str a, PyValue.str b => a == b
  | PyValue.int a, PyValue.int b => a == b
  | PyValue.bool a, PyValue.bool b => a == b
  | PyValue.none, PyValue.none => true
  | _, _ => false

/-- JSON whitespace characters (also accepted around Python literals). -/
def isJsonWs (c : Char) : Bool :=
  c == ' ' || c == '\t' || c == '\n' || c == '\r'

/-- Drop leading whitespace. -/
def skipWs (l : List Char) : List Char := l.dropWhile isJsonWs

/-- ASCII whitespace stripped by Python's `str.strip()`. -/
def isPySpace (c : Char) : Bool :=
  c == ' ' || c == '\t' || c == '\n' || c == '\r' ||
  c == Char.ofNat 11 || c == Char.ofNat 12

/-- Python `str.strip()` on a character list. -/
def pyStripChars (l : List Char) : List Char :=
  ((l.dropWhile isPySpace).reverse.dropWhile isPySpace).reverse

/-- Python `str.strip()`. -/
def pyStrip (s : String) : String := String.mk (pyStripChars s.toList)

/-- Decimal value of a digit run. -/
def digitsVal : List Char → Nat → Nat
  | [], acc => acc
  | c :: cs, acc => digitsVal cs (acc * 10 + (c.toNat - 48))

/-- Leading digit run and the rest. -/
def takeDigits (l : List Char) : List Char × List Char :=
  (l.takeWhile Char.isDigit, l.dropWhile Char.isDigit)

/-- Whether a number token continues as a float/exponent (outside the
modelled subset, so such numbers fail to parse). -/
def hasFloatTail : List Char → Bool
  | [] => false
  | c :: _ => c == '.' || c == 'e' || c == 'E'

/-- Integer token: optional minus sign followed by digits. -/
def parseIntTok (l : List Char) : Option (Int × List Char) :=
  match l with
  | [] => Option.none
  | c :: rest =>
    if c == '-' then
      match takeDigits rest with
      | ([], _) => Option.none
      | (ds, rest2) =>
        if hasFloatTail rest2 then Option.none
        else Option.some (-(digitsVal ds 0 : Int), rest2)
    else if c.isDigit then
      match takeDigits l with
      | (ds, rest2) =>
        if hasFloatTail rest2 then Option.none
        else Option.some ((digitsVal ds 0 : Int), rest2)
    else Option.none

/-- Escape table shared by the modelled JSON and Python string literals. -/
def escJson (c : Char) : Option Char :=
  if c == quoteChar then Option.some quoteChar
  else if c == backslashChar then Option.some backslashChar
  else if c == '/' then Option.some '/'
  else if c == 'n' then Option.some '\n'
  else if c == 't' then Option.some '\t'
  else if c == 'r' then Option.some '\r'
  else if c == 'b' then Option.some (Char.ofNat 8)
  else if c == 'f' then Option.some (Char.ofNat 12)
  else Option.none

/-- Escape table of the modelled Python string literals: additionally the
escaped single quote. -/
def escPy (c : Char) : Option Char :=
  if c == squoteChar then Option.some squoteChar else escJson c

/-- Body of a quoted string literal after the opening quote `q`: returns
the decoded characters and the input following the closing quote. -/
def strBody (q : Char) (esc : Char → Option Char) : List Char → Option (List Char × List Char)
  | [] => Option.none
  | c :: rest =>
    if c == q then Option.some ([], rest)
    else if c == backslashChar then
      match rest with
      | [] => Option.none
      | e :: rest2 =>
        match esc e with
        | Option.none => Option.none
        | Option.some ec =>
          match strBody q esc rest2 with
          | Option.none => Option.none
          | Option.some (cs, r) => Option.some (ec :: cs, r)
    else
      match strBody q esc rest with
      | Option.none => Option.none
      | Option.some (cs, r) => Option.some (c :: cs, r)

/-- Dict update with Python semantics: a repeated key keeps its position
and takes the latest value, a fresh key is appended. -/
def dictSet (es : List (PyValue × PyValue)) (k v : PyValue) : List (PyValue × PyValue) :=
  if es.any (fun e => pyKeyEq e.1 k) then
    es.map (fun e => if pyKeyEq e.1 k then (k, v) else e)
  else es ++ [(k, v)]

/-- Dict lookup by key equality. -/
def dictLookup (es : List (PyValue × PyValue)) (k : PyValue) : Option PyValue :=
  (es.find? (fun e => pyKeyEq e.1 k)).map (fun e => e.2)

mutual

/-- Models `json.loads` value parsing on the literal subset: returns the
parsed value and the remaining input. -/
def jsonVal : Nat → List Char → Option (PyValue × List Char)
  | 0, _ => Option.none
  | Nat.succ fuel, l0 =>
    match skipWs l0 with
    | [] => Option.none
    | c :: rest =>
      if c == quoteChar then
        match strBody quoteChar escJson rest with
        | Option.some (cs, rest2) => Option.some (PyValue.str (String.mk cs), rest2)
        | Option.none => Option.none
      else if c == lbraceChar then
        match skipWs rest with
        | c2 :: rest2 =>
          if c2 == rbraceChar then Option.some (PyValue.dict [], rest2)
          else jsonMembers fuel (skipWs rest) []
        | [] => Option.none
      else if c == '[' then
        match skipWs rest with
        | c2 :: rest2 =>
          if c2 == ']' then Option.some (PyValue.list [], rest2)
          else jsonItems fuel (skipWs rest) []
        | [] => Option.none
      else if c == 't' then
        match rest with
        | 'r' :: 'u' :: 'e' :: rest2 => Option.some (PyValue.bool true, rest2)
        | _ => Option.none
      else if c == 'f' then
        match rest with
        | 'a' :: 'l' :: 's' :: 'e' :: rest2 => Option.some (PyValue.bool false, rest2)
        | _ => Option.none
      else if c == 'n' then
        match rest with
        | 'u' :: 'l' :: 'l' :: rest2 => Option.some (PyValue.none, rest2)
        | _ => Option.none
      else
        match parseIntTok (c :: rest) with
        | Option.some (n, rest2) => Option.some (PyValue.int n, rest2)
        | Option.none => Option.none

termination_by structural fuel => fuel

/-- JSON array elements after the opening bracket (non-empty case). -/
def jsonItems : Nat → List Char → List PyValue → Option (PyValue × List Char)
  | 0, _, _ => Option.none
  | Nat.succ fuel, l, acc =>
    match jsonVal fuel l with
    | Option.none => Option.none
    | Option.some (v, rest) =>
      match skipWs rest with
      | c :: rest2 =>
        if c == ',' then jsonItems fuel rest2 (acc ++ [v])
        else if c == ']' then Option.some (PyValue.list (acc ++ [v]), rest2)
        else Option.none
      | [] => Option.none

termination_by structural fuel => fuel

/-- JSON object members after the opening brace (non-empty case). -/
def jsonMembers : Nat → List Char → List (PyValue × PyValue) → Option (PyValue × List Char)
  | 0, _, _ => Option.none
  | Nat.succ fuel, l, acc =>
    match skipWs l with
    | c :: rest =>
      if c == quoteChar then
        match strBody quoteChar escJson rest with
        | Option.none => Option.none
        | Option.some (ks, restK) =>
          match skipWs restK with
          | c2 :: rest2 =>
            if c2 == ':' then
              match jsonVal fuel rest2 with
              | Option.none => Option.none
              | Option.some (v, restV) =>
                match skipWs restV with
                | c3 :: rest3 =>
                  if c3 == ',' then
                    jsonMembers fuel rest3 (dictSet acc (PyValue.str (String.mk ks)) v)
                  else if c3 == rbraceChar then
                    Option.some (PyValue.dict (dictSet acc (PyValue.str (String.mk ks)) v), rest3)
                  else Option.none
                | [] => Option.none
            else Option.none
          | [] => Option.none
      else Option.none
    | [] => Option.none

termination_by structural fuel => fuel

end

/-- Models `json.loads` (the strict structured parse of the source): the
whole input, up to surrounding whitespace, must be one JSON value. -/
def jsonParse (s : String) : Option PyValue :=
  match jsonVal (2 * s.length + 8) s.toList with
  | Option.some (v, rest) => if skipWs rest = [] then Option.some v else Option.none
  | Option.none => Option.none

mutual

/-- Models `ast.literal_eval` value parsing on the literal subset. -/
def pyVal : Nat → List Char → Option (PyValue × List Char)
  | 0, _ => Option.none
  | Nat.succ fuel, l0 =>
    match skipWs l0 with
    | [] => Option.none
    | c :: rest =>
      if c == quoteChar then
        match strBody quoteChar escPy rest with
        | Option.some (cs, rest2) => Option.some (PyValue.str (String.mk cs), rest2)
        | Option.none => Option.none
      else if c == squoteChar then
        match strBody squoteChar escPy rest with
        | Option.some (cs, rest2) => Option.some (PyValue.str (String.mk cs), rest2)
        | Option.none => Option.none
      else if c == lbraceChar then
        match skipWs rest with
        | c2 :: rest2 =>
          if c2 == rbraceChar then Option.some (PyValue.dict [], rest2)
          else pyMembers fuel (skipWs rest) []
        | [] => Option.none
      else if c == '[' then
        match skipWs rest with
        | c2 :: rest2 =>
          if c2 == ']' then Option.some (PyValue.list [], rest2)
          else pyItems fuel (skipWs rest) []
        | [] => Option.none
      else if c == 'T' then
        match rest with
        | 'r' :: 'u' :: 'e' :: rest2 => Option.some (PyValue.bool true, rest2)
        | _ => Option.none
      else if c == 'F' then
        match rest with
        | 'a' :: 'l' :: 's' :: 'e' :: rest2 => Option.some (PyValue.bool false, rest2)
        | _ => Option.none
      else if c == 'N' then
        match rest with
        | 'o' :: 'n' :: 'e' :: rest2 => Option.some (PyValue.none, rest2)
        | _ => Option.none
      else
        match parseIntTok (c :: rest) with
        | Option.some (n, rest2) => Option.some (PyValue.int n, rest2)
        | Option.none => Option.none

termination_by structural fuel => fuel

/-- Python list elements after the opening bracket (non-empty case);
a trailing comma before the closing bracket is allowed. -/
def pyItems : Nat → List Char → List PyValue → Option (PyValue × List Char)
  | 0, _, _ => Option.none
  | Nat.succ fuel, l, acc =>
    match pyVal fuel l with
    | Option.none => Option.none
    | Option.some (v, rest) =>
      match skipWs rest with
      | c :: rest2 =>
        if c == ',' then
          match skipWs rest2 with
          | d :: rest3 =>
            if d == ']' then Option.some (PyValue.list (acc ++ [v]), rest3)
            else pyItems fuel rest2 (acc ++ [v])
          | [] => Option.none
        else if c == ']' then Option.some (PyValue.list (acc ++ [v]), rest2)
        else Option.none
      | [] => Option.none

termination_by structural fuel => fuel

/-- Python dict members after the opening brace (non-empty case); keys may
be arbitrary literals and a trailing comma is allowed. -/
def pyMembers : Nat → List Char → List (PyValue × PyValue) → Option (PyValue × List Char)
  | 0, _, _ => Option.none
  | Nat.succ fuel, l, acc =>
    match pyVal fuel l with
    | Option.none => Option.none
    | Option.some (k, restK) =>
      match skipWs restK with
      | c2 :: rest2 =>
        if c2 == ':' then
          match pyVal fuel rest2 with
          | Option.none => Option.none
          | Option.some (v, restV) =>
            match skipWs restV with
            | c3 :: rest3 =>
              if c3 == ',' then
                match skipWs rest3 with
                | d :: rest4 =>
                  if d == rbraceChar then
                    Option.some (PyValue.dict (dictSet acc k v), rest4)
                  else pyMembers fuel rest3 (dictSet acc k v)
                | [] => Option.none
              else if c3 == rbraceChar then
                Option.some (PyValue.dict (dictSet acc k v), rest3)
              else Option.none
            | [] => Option.none
        else Option.none
      | [] => Option.none

termination_by structural fuel => fuel

end

/-- Models `ast.literal_eval` (the permissive fallback parse of the
source): the whole input, up to surrounding whitespace, must be one
Python literal. -/
def pyLiteralEval (s : String) : Option PyValue :=
  match pyVal (2 * s.length + 8) s.toList with
  | Option.some (v, rest) => if skipWs rest = [] then Option.some v else Option.none
  | Option.none => Option.none

/-- Characters of a Python `repr` of a string body (simplified: always
single-quoted, common escapes only). -/
def reprStrChars : List Char → List Char
  | [] => []
  | c :: cs =>
    if c == backslashChar then backslashChar :: backslashChar :: reprStrChars cs
    else if c == squoteChar then backslashChar :: squoteChar :: reprStrChars cs
    else if c == '\n' then backslashChar :: 'n' :: reprStrChars cs
    else if c == '\r' then backslashChar :: 'r' :: reprStrChars cs
    else if c == '\t' then backslashChar :: 't' :: reprStrChars cs
    else c :: reprStrChars cs

mutual

/-- Models Python `repr` on the modelled values (used by `str()` on
containers, e.g. when the plan list is rendered into a prompt). -/
def pyRepr : PyValue → String
  | PyValue.str s => "\x27" ++ String.mk (reprStrChars s.toList) ++ "\x27"
  | PyValue.int n => toString n
  | PyValue.bool b => if b then "True" else "False"
  | PyValue.none => "None"
  | PyValue.list vs => "[" ++ pyReprItems vs ++ "]"
  | PyValue.dict es => "\x7b" ++ pyReprEntries es ++ "\x7d"

/-- Comma-separated `repr` of list elements. -/
def pyReprItems : List PyValue → String
  | [] => ""
  | [v] => pyRepr v
  | v :: rest => pyRepr v ++ ", " ++ pyReprItems rest

/-- Comma-separated `repr` of dict entries. -/
def pyReprEntries : List (PyValue × PyValue) → String
  | [] => ""
  | [(k, v)] => pyRepr k ++ ": " ++ pyRepr v
  | (k, v) :: rest => pyRepr k ++ ": " ++ pyRepr v ++ ", " ++ pyReprEntries rest

end

/-- Models Python `str()` on the modelled values. -/
def pyStr : PyValue → String
  | PyValue.str s => s
  | PyValue.int n => toString n
  | PyValue.bool b => if b then "True" else "False"
  | PyValue.none => "None"
  | PyValue.list vs => pyRepr (PyValue.list vs)
  | PyValue.dict es => pyRepr (PyValue.dict es)

/-- Python `str.split(sep)` on character lists (non-overlapping, leftmost
first; the guard on an empty separator keeps the recursion well-founded —
the program only splits on the non-empty fence markers). -/
def splitChars (sep : List Char) : List Char → List (List Char)
  | [] => [[]]
  | c :: cs =>
    if sep.isPrefixOf (c :: cs) && !sep.isEmpty then
      [] :: splitChars sep (List.drop (sep.length - 1) cs)
    else
      match splitChars sep cs with
      | [] => [[c]]
      | p :: ps => (c :: p) :: ps
termination_by l => l.length
decreasing_by
  all_goals simp [List.length_drop]
  omega

/-- Python `str.split(sep)`. -/
def pySplit (s sep : String) : List String :=
  (splitChars sep.toList s.toList).map String.mk

/-- Whether `sep` occurs as a contiguous sublist. -/
def occursIn (sep : List Char) : List Char → Bool
  | [] => sep.isEmpty
  | c :: cs => sep.isPrefixOf (c :: cs) || occursIn sep cs

/-- One role-tagged message of a conversation. -/
structure Message where
  role : String
  content : String
deriving BEq, DecidableEq

/-- A parsed tool request: the trimmed tool name and the input string. -/
structure ToolRequest where
  tool : String
  input : String
deriving BEq, DecidableEq

/-- Modelled from the spec: the Tool Registry (`tools.ToolExecutor`, whose
module is not among the sources) maps a unique tool name to a description
and a callable from a string input to a string observation. -/
structure ToolExecutor where
  tools : List (String × String × (String → String))

/-- Modelled from the spec: `getTool(name) -> callable|absent`, lookup by
name with lookup-miss. -/
def getTool (te : ToolExecutor) (name : String) : Option (String → String) :=
  (te.tools.find? (fun e => e.1 == name)).map (fun e => e.2.2)

/-- Modelled from the spec: `getAvailableTools() -> string`, a
human-readable catalog of tool names and descriptions. -/
def getAvailableTools (te : ToolExecutor) : String :=
  String.intercalate "\n" (te.tools.map (fun e => "- " ++ e.1 ++ ": " ++ e.2.1))

/-- The tool catalog rendered into the execution prompt (source lines
111-115): the catalog if a registry is bound and non-empty, otherwise the
no-tools placeholder. -/
def toolInstructions : Option ToolExecutor → String
  | Option.some t => if t.tools.isEmpty then "（当前无可用工具）" else getAvailableTools t
  | Option.none => "（当前无可用工具）"

/-- `PLANNER_PROMPT_TEMPLATE.format(question=question)` (source lines
21-32). -/
def plannerPrompt (question : String) : String :=
  "\n你是一个顶级的AI规划专家。你的任务是将用户提出的复杂问题分解成一个由多个简单步骤组成的行动计划。\n请确保计划中的每个步骤都是一个独立的、可执行的子任务，并且严格按照逻辑顺序排列。\n你的输出必须是一个Python列表, 其中每个元素都是一个描述子任务的字符串。\n\n问题: "
  ++ question
  ++ "\n\n请严格按照以下格式输出你的计划，```python与```作为前后缀是必要的:\n```python\n[\"步骤1\", \"步骤2\", \"步骤3\", ...]\n```\n"

/-- `EXECUTOR_PROMPT_TEMPLATE.format(...)` (source lines 59-79, 116-122);
the plan list is rendered by Python `str()`. -/
def execPrompt (question : String) (planList : List String)
    (historyText current_step tool_instructions : String) : String :=
  "\n你是一位顶级的AI执行专家。你的任务是严格按照给定的计划，一步步地解决问题。\n你将收到原始问题、完整的计划、以及到目前为止已经完成的步骤和结果。\n你可以使用下方的工具列表获取所需信息：\n"
  ++ tool_instructions
  ++ "\n\n使用工具时，请输出 JSON：\x7b\"tool\": \"工具名称\", \"input\": \"工具输入\"\x7d。\n当你获得最终答案时，仅输出答案文本，不要再输出 JSON 或额外解释。\n\n# 原始问题:\n"
  ++ question
  ++ "\n\n# 完整计划:\n"
  ++ pyStr (PyValue.list (planList.map PyValue.str))
  ++ "\n\n# 历史步骤与结果:\n"
  ++ historyText
  ++ "\n\n# 当前步骤:\n"
  ++ current_step
  ++ "\n"

/-- The parsing part of `Planner.plan` (source lines 46-56): split on the
first `py`-fence marker, take the text before the next closing marker,
strip it, and literal-parse it; every caught exception (missing fence,
malformed literal) and every non-list parse yields the empty plan. -/
def planParse (response_text : String) : List PyValue :=
  match pySplit response_text "```python" with
  | _ :: part1 :: _ =>
    match pyLiteralEval (pyStrip ((pySplit part1 "```").headD "")) with
    | Option.some (PyValue.list vs) => vs
    | _ => []
  | _ => []

/-- `Planner.plan` (source lines 38-56): one Completion Engine call, an
absent completion normalized to the empty string, then `planParse`. -/
def plan (llm : List Message → Option String) (question : String) : List PyValue :=
  planParse ((llm [⟨"user", plannerPrompt question⟩]).getD "")

/-- `Executor._parse_tool_request` (source lines 87-102): strict JSON
parse first, on failure a literal-expression parse; the value is accepted
only if it is a dict with both a `tool` and an `input` key and the
stringified tool name is non-empty after trimming. -/
def parseToolRequest (response_text : String) : Option ToolRequest :=
  if response_text = "" then Option.none
  else
    match
      (match jsonParse response_text with
       | Option.some d => Option.some d
       | Option.none => pyLiteralEval response_text) with
    | Option.none => Option.none
    | Option.some data =>
      match data with
      | PyValue.dict es =>
        match dictLookup es (PyValue.str "tool"), dictLookup es (PyValue.str "input") with
        | Option.some tv, Option.some iv =>
          if pyStrip (pyStr tv) = "" then Option.none
          else Option.some ⟨pyStrip (pyStr tv), pyStr iv⟩
        | _, _ => Option.none
      | _ => Option.none

/-- The observation for an unregistered tool (source line 139). -/
def unregisteredObs (tool_name : String) : String :=
  "错误：工具 \x27" ++ tool_name ++ "\x27 未注册。"

/-- The user turn feeding an observation back to the engine (source line
148). -/
def obsMessage (tool_name observation : String) : String :=
  "工具 \x27" ++ tool_name ++ "\x27 的输出: " ++ observation

/-- The History record of one tool resolution (source line 145). -/
def toolRecord (i : Nat) (step tool_name observation : String) : String :=
  "步骤 " ++ toString i ++ ": " ++ step ++ "\n使用工具 " ++ tool_name ++ " -> " ++ observation ++ "\n\n"

/-- The terminal History record of a completed step (source line 152). -/
def stepRecord (i : Nat) (step result : String) : String :=
  "步骤 " ++ toString i ++ ": " ++ step ++ "\n结果: " ++ result ++ "\n\n"

/-- State returned by the tool-resolution loop: the latest completion, the
History text, the step Conversation, the number of completed iterations
(`tool_iterations`), and the number of engine calls made inside the loop. -/
structure LoopOut where
  response : String
  history : String
  messages : List Message
  iters : Nat
  calls : Nat

/-- The tool-resolution loop of `Executor.execute` (source lines 129-150).
The fuel argument is `max_tool_iterations - tool_iterations`, so the loop
condition `tool_executor and tool_iterations < max_tool_iterations` is the
match on `te` and on a non-zero fuel. -/
def toolLoop (llm : List Message → Option String) (te : Option ToolExecutor)
    (i : Nat) (step : String) :
    Nat → String → String → List Message → LoopOut
  | 0, response_text, history, messages => ⟨response_text, history, messages, 0, 0⟩
  | Nat.succ fuel, response_text, history, messages =>
    match te with
    | Option.none => ⟨response_text, history, messages, 0, 0⟩
    | Option.some t =>
      match parseToolRequest response_text with
      | Option.none => ⟨response_text, history, messages, 0, 0⟩
      | Option.some req =>
        let observation :=
          match getTool t req.tool with
          | Option.none => unregisteredObs req.tool
          | Option.some f => f req.input
        let history2 := history ++ toolRecord i step req.tool observation
        let messages2 := messages ++ [⟨"user", obsMessage req.tool observation⟩]
        let response2 := (llm messages2).getD ""
        let messages3 := messages2 ++ [⟨"assistant", response2⟩]
        let out := toolLoop llm te i step fuel response2 history2 messages3
        ⟨out.response, out.history, out.messages, out.iters + 1, out.calls + 1⟩

/-- Result of executing one step: the step's result text, the History
after the step, the step's Conversation, and the engine call / tool
resolution counts. -/
structure StepResult where
  result : String
  history : String
  messages : List Message
  engineCalls : Nat
  toolResolutions : Nat

/-- One iteration of the step loop of `Executor.execute` (source lines
109-154): build the prompt, one engine call (absent completion normalized
to the empty string), the tool-resolution loop, then the terminal History
record. -/
def executeStep (llm : List Message → Option String) (te : Option ToolExecutor)
    (max_tool_iterations : Nat) (question : String) (planList : List String)
    (history : String) (i : Nat) (step : String) : StepResult :=
  let prompt := execPrompt question planList
    (if history = "" then "无" else history) step (toolInstructions te)
  let messages : List Message := [⟨"user", prompt⟩]
  let response_text := (llm messages).getD ""
  let messages := messages ++ [⟨"assistant", response_text⟩]
  let out := toolLoop llm te i step max_tool_iterations response_text history messages
  ⟨out.response, out.history ++ stepRecord i step out.response, out.messages,
    1 + out.calls, out.iters⟩

/-- The first completion of a step (the engine's answer to the initial
execution prompt, absent normalized to the empty string). -/
def firstResponse (llm : List Message → Option String) (te : Option ToolExecutor)
    (question : String) (planList : List String) (history : String) (step : String) : String :=
  (llm [⟨"user", execPrompt question planList
    (if history = "" then "无" else history) step (toolInstructions te)⟩]).getD ""

/-- The step loop of `Executor.execute` over the enumerated plan, threading
History and the running final answer. -/
def executeSteps (llm : List Message → Option String) (te : Option ToolExecutor)
    (max_tool_iterations : Nat) (question : String) (planList : List String) :
    List (Nat × String) → String → String → String × String
  | [], history, final_answer => (final_answer, history)
  | (i, step) :: rest, history, _ =>
    let out := executeStep llm te max_tool_iterations question planList history i step
    executeSteps llm te max_tool_iterations question planList rest out.history out.result

/-- `Executor.execute` (source lines 104-156): steps enumerated from 1,
History starting empty; returns the final answer and the final History. -/
def execute (llm : List Message → Option String) (te : Option ToolExecutor)
    (max_tool_iterations : Nat) (question : String) (planList : List String) :
    String × String :=
  executeSteps llm te max_tool_iterations question planList
    (List.enumFrom 1 planList) "" ""

/-- The opening fence marker, as characters. -/
def fenceOpen : List Char := "```python".toList

/-- The closing fence marker, as characters. -/
def fenceClose : List Char := "```".toList

/-- The word completing the opening fence marker after the backticks. -/
def pyWord : List Char := "python".toList

/-- A well-formed closing fence is not followed immediately by a further
backtick (otherwise the closing marker itself would be ambiguous). -/
def headNoTick : List Char → Bool
  | [] => true
  | c :: _ => !(c == backtickChar)

/-- The acceptance test of `_parse_tool_request` stated on an already
parsed value: a dict with both a `tool` and an `input` key whose
stringified tool name is non-empty after trimming. -/
def acceptToolData : PyValue → Option ToolRequest
  | PyValue.dict es =>
    match dictLookup es (PyValue.str "tool"), dictLookup es (PyValue.str "input") with
    | Option.some tv, Option.some iv =>
      if pyStrip (pyStr tv) = "" then Option.none
      else Option.some ⟨pyStrip (pyStr tv), pyStr iv⟩
    | _, _ => Option.none
  | _ => Option.none

/-- Concatenation of tool-resolution History records of one step. -/
def joinRecords (i : Nat) (step : String) : List (String × String) → String
  | [] => ""
  | p :: rest => toolRecord i step p.1 p.2 ++ joinRecords i step rest

/-- A concrete one-tool registry, used to evaluate the theorems below on
concrete runs. -/
def wTe : ToolExecutor := ⟨[("Search", "a web search engine", fun s => "OBS(" ++ s ++ ")")]⟩

/-- A concrete well-formed tool-request completion. -/
def wToolText : String := "\x7b\"tool\": \"Search\", \"input\": \"X\"\x7d"

/-- A concrete tool-request completion naming an unregistered tool. -/
def wFooText : String := "\x7b\"tool\": \"Foo\", \"input\": \"X\"\x7d"

/-- A concrete tool-request completion carrying an extra key. -/
def wExtraText : String := "\x7b\"tool\": \"Search\", \"input\": \"X\", \"extra\": \"Y\"\x7d"

/-- A concrete tool-request completion in Python-literal (single-quoted)
syntax, which strict JSON parsing rejects. -/
def wSingleQuoteText : String := "\x7b'tool': 'Search', 'input': 'X'\x7d"

/-- An engine that always requests the Search tool. -/
def wLlmTool : List Message → Option String := fun _ => Option.some wToolText

/-- An engine whose completions are plain text (no tool request). -/
def wLlmPlain : List Message → Option String := fun _ => Option.some "最终答案文本"

/-- An engine that is absent (returns no completion). -/
def wLlmNone : List Message → Option String := fun _ => Option.none

/-- An engine that first requests the unregistered tool Foo, then answers. -/
def wLlmFoo : List Message → Option String := fun msgs =>
  if msgs.length == 1 then Option.some wFooText else Option.some "DONE"

/-- Concrete segments of a well-formed planner response. -/
def wPre : List Char := "Plan:\n".toList

/-- Concrete fenced-block body holding a list-of-strings literal. -/
def wMid : List Char := "\n[\"a\", \"b\"]\n".toList

/-- Concrete trailing text after the closing fence. -/
def wPost : List Char := "\nDone".toList

/-- The concrete planner response assembled from the segments above. -/
def wPlanResp : String := String.mk (wPre ++ (fenceOpen ++ (wMid ++ (fenceClose ++ wPost))))

/-- An engine returning the concrete planner response. -/
def wLlmPlan : List Message → Option String := fun _ => Option.some wPlanResp

/-- The `(tool name, observation)` pairs of the records appended to History
by the tool-resolution loop, computed alongside `toolLoop`. -/
def toolLoopRecs (llm : List Message → Option String) (te : Option ToolExecutor)
    (i : Nat) (step : String) : Nat → String → List Message → List (String × String)
  | 0, _, _ => []
  | Nat.succ fuel, response_text, messages =>
    match te, parseToolRequest response_text with
    | Option.some t, Option.some req =>
      let observation :=
        match getTool t req.tool with
        | Option.none => unregisteredObs req.tool
        | Option.some f => f req.input
      let messages2 := messages ++ [⟨"user", obsMessage req.tool observation⟩]
      let response2 := (llm messages2).getD ""
      (req.tool, observation) ::
        toolLoopRecs llm te i step fuel response2 (messages2 ++ [⟨"assistant", response2⟩])
    | _, _ => []

/-- The messages appended to the step Conversation by the tool-resolution
loop, computed alongside `toolLoop`. -/
def toolLoopMsgs (llm : List Message → Option String) (te : Option ToolExecutor)
    (i : Nat) (step : String) : Nat → String → List Message → List Message
  | 0, _, _ => []
  | Nat.succ fuel, response_text, messages =>
    match te, parseToolRequest response_text with
    | Option.some t, Option.some req =>
      let observation :=
        match getTool t req.tool with
        | Option.none => unregisteredObs req.tool
        | Option.some f => f req.input
      let messages2 := messages ++ [⟨"user", obsMessage req.tool observation⟩]
      let response2 := (llm messages2).getD ""
      ⟨"user", obsMessage req.tool observation⟩ :: ⟨"assistant", response2⟩ ::
        toolLoopMsgs llm te i step fuel response2 (messages2 ++ [⟨"assistant", response2⟩])
    | _, _ => []

lemma isPrefixOf_append_self (p q : List Char) : p.isPrefixOf (p ++ q) = true := by
  rw [List.isPrefixOf_iff_prefix]
  exact List.prefix_append p q

lemma isPrefixOf_exists {p l : List Char} (h : p.isPrefixOf l = true) :
    ∃ t, l = p ++ t := by
  rw [List.isPrefixOf_iff_prefix] at h
  exact h.imp fun t ht => ht.symm

lemma isPrefixOf_cons_cons (c0 : Char) (s' : List Char) (y : Char) (l : List Char) :
    (c0 :: s').isPrefixOf (y :: l) = ((c0 == y) && s'.isPrefixOf l) := by
  simp [List.isPrefixOf]

lemma splitChars_nil (sep : List Char) : splitChars sep [] = [[]] := by
  rw [splitChars]

lemma splitChars_sep_append (c0 : Char) (s' q : List Char) :
    splitChars (c0 :: s') ((c0 :: s') ++ q) = [] :: splitChars (c0 :: s') q := by
  show splitChars (c0 :: s') (c0 :: (s' ++ q)) = _
  rw [splitChars]
  have hc : ((c0 :: s').isPrefixOf (c0 :: (s' ++ q)) && !(c0 :: s').isEmpty) = true := by
    have := isPrefixOf_append_self (c0 :: s') q
    simp only [List.cons_append] at this
    simp [this]
  rw [if_pos hc]
  have hdrop : List.drop ((c0 :: s').length - 1) (s' ++ q) = q := by
    have : (c0 :: s').length - 1 = s'.length := by simp
    rw [this, List.drop_left]
  rw [hdrop]

lemma splitChars_cons_not (sep : List Char) (c : Char) (cs : List Char)
    (h : sep.isPrefixOf (c :: cs) = false) :
    splitChars sep (c :: cs) =
      (match splitChars sep cs with
       | [] => [[c]]
       | p :: ps => (c :: p) :: ps) := by
  rw [splitChars, h]
  simp

lemma splitChars_ne_nil (sep l : List Char) : splitChars sep l ≠ [] := by
  cases l with
  | nil => simp [splitChars_nil]
  | cons c cs =>
    by_cases h : sep.isPrefixOf (c :: cs) = true
    · rw [splitChars]
      by_cases he : sep.isEmpty = true
      · simp [h, he]
        cases hs : splitChars sep cs <;> simp
      · simp [h, he]
    · rw [splitChars_cons_not sep c cs (Bool.eq_false_iff.mpr h)]
      cases hs : splitChars sep cs <;> simp

lemma splitChars_headD_cons (sep : List Char) (c : Char) (cs : List Char)
    (h : sep.isPrefixOf (c :: cs) = false) :
    (splitChars sep (c :: cs)).headD [] = c :: (splitChars sep cs).headD [] := by
  rw [splitChars_cons_not sep c cs h]
  cases hs : splitChars sep cs <;> simp

lemma splitChars_headD_append (c0 : Char) (s' a x : List Char) (h : c0 ∉ a) :
    (splitChars (c0 :: s') (a ++ x)).headD [] = a ++ (splitChars (c0 :: s') x).headD [] := by
  induction a with
  | nil => simp
  | cons y ys ih =>
    have hy : c0 ≠ y := fun e => h (by simp [e])
    have hnp : (c0 :: s').isPrefixOf (y :: (ys ++ x)) = false := by
      rw [isPrefixOf_cons_cons, beq_eq_false_iff_ne.mpr hy]
      simp
    rw [List.cons_append, splitChars_headD_cons _ _ _ hnp,
      ih fun hm => h (List.mem_cons_of_mem _ hm)]
    simp

lemma splitChars_clean_append (c0 : Char) (s' a b : List Char) (h : c0 ∉ a) :
    splitChars (c0 :: s') (a ++ ((c0 :: s') ++ b)) = a :: splitChars (c0 :: s') b := by
  induction a with
  | nil => simpa using splitChars_sep_append c0 s' b
  | cons y ys ih =>
    have hy : c0 ≠ y := fun e => h (by simp [e])
    have hnp : (c0 :: s').isPrefixOf (y :: (ys ++ ((c0 :: s') ++ b))) = false := by
      rw [isPrefixOf_cons_cons, beq_eq_false_iff_ne.mpr hy]
      simp
    rw [List.cons_append, splitChars_cons_not _ _ _ hnp,
      ih fun hm => h (List.mem_cons_of_mem _ hm)]

lemma splitChars_of_not_occurs (sep l : List Char) (h : occursIn sep l = false) :
    splitChars sep l = [l] := by
  induction l with
  | nil => simp [splitChars_nil]
  | cons c cs ih =>
    rw [occursIn] at h
    have h1 : sep.isPrefixOf (c :: cs) = false := by
      cases hp : sep.isPrefixOf (c :: cs) <;> simp [hp] at h ⊢
    have h2 : occursIn sep cs = false := by
      cases ho : occursIn sep cs <;> simp [h1, ho] at h ⊢
    rw [splitChars_cons_not sep c cs h1, ih h2]

lemma toList_fenceOpen : "```python".toList = fenceOpen := rfl

lemma toList_fenceClose : "```".toList = fenceClose := rfl

lemma fenceOpen_cons :
    fenceOpen = backtickChar :: backtickChar :: backtickChar :: pyWord := by rfl

lemma fenceClose_cons : fenceClose = [backtickChar, backtickChar, backtickChar] := by rfl

lemma fenceClose_append_pyWord : fenceClose ++ pyWord = fenceOpen := by rfl

lemma pySplit_mk (l : List Char) (sep : String) :
    pySplit (String.mk l) sep = (splitChars sep.toList l).map String.mk := rfl

lemma splitChars_fenceOpen_clean (a b : List Char) (h : backtickChar ∉ a) :
    splitChars fenceOpen (a ++ (fenceOpen ++ b)) = a :: splitChars fenceOpen b := by
  rw [fenceOpen_cons]
  exact splitChars_clean_append _ _ a b h

lemma splitChars_fenceOpen_headD (a x : List Char) (h : backtickChar ∉ a) :
    (splitChars fenceOpen (a ++ x)).headD [] = a ++ (splitChars fenceOpen x).headD [] := by
  rw [fenceOpen_cons]
  exact splitChars_headD_append _ _ a x h

lemma splitChars_fenceClose_headD (a x : List Char) (h : backtickChar ∉ a) :
    (splitChars fenceClose (a ++ x)).headD [] = a ++ (splitChars fenceClose x).headD [] := by
  rw [fenceClose_cons]
  exact splitChars_headD_append _ _ a x h

lemma splitChars_fenceClose_sep (q : List Char) :
    splitChars fenceClose (fenceClose ++ q) = [] :: splitChars fenceClose q := by
  rw [fenceClose_cons]
  exact splitChars_sep_append _ _ q

lemma fence_head_cases (post : List Char) (h : headNoTick post = true) :
    (splitChars fenceOpen (fenceClose ++ post)).headD [] = [] ∨
    ∃ q, (splitChars fenceOpen (fenceClose ++ post)).headD [] = fenceClose ++ q := by
  have hbt : ∀ w : List Char, (backtickChar :: w).isPrefixOf post = false := by
    intro w
    cases hp : post with
    | nil => rfl
    | cons c r =>
      rw [isPrefixOf_cons_cons]
      have hc : c ≠ backtickChar := by
        rw [hp] at h
        simpa [headNoTick] using h
      rw [beq_eq_false_iff_ne.mpr (Ne.symm hc)]
      simp
  by_cases hp : pyWord.isPrefixOf post = true
  · obtain ⟨r, hr⟩ := isPrefixOf_exists hp
    left
    rw [hr, ← List.append_assoc, fenceClose_append_pyWord, fenceOpen_cons,
      splitChars_sep_append]
    simp
  · right
    refine ⟨(splitChars fenceOpen post).headD [], ?_⟩
    have n1 : fenceOpen.isPrefixOf
        (backtickChar :: backtickChar :: backtickChar :: post) = false := by
      rw [fenceOpen_cons, isPrefixOf_cons_cons, isPrefixOf_cons_cons, isPrefixOf_cons_cons]
      simp [Bool.eq_false_iff.mpr hp]
    have n2 : fenceOpen.isPrefixOf (backtickChar :: backtickChar :: post) = false := by
      rw [fenceOpen_cons, isPrefixOf_cons_cons, isPrefixOf_cons_cons]
      simp [hbt pyWord]
    have n3 : fenceOpen.isPrefixOf (backtickChar :: post) = false := by
      rw [fenceOpen_cons, isPrefixOf_cons_cons]
      simp [hbt (backtickChar :: pyWord)]
    calc (splitChars fenceOpen (fenceClose ++ post)).headD []
        = (splitChars fenceOpen
            (backtickChar :: backtickChar :: backtickChar :: post)).headD [] := rfl
      _ = backtickChar ::
            (splitChars fenceOpen (backtickChar :: backtickChar :: post)).headD [] :=
          splitChars_headD_cons _ _ _ n1
      _ = backtickChar :: backtickChar ::
            (splitChars fenceOpen (backtickChar :: post)).headD [] := by
          rw [splitChars_headD_cons _ _ _ n2]
      _ = backtickChar :: backtickChar :: backtickChar ::
            (splitChars fenceOpen post).headD [] := by
          rw [splitChars_headD_cons _ _ _ n3]
      _ = fenceClose ++ (splitChars fenceOpen post).headD [] := by
          simp [fenceClose_cons]

lemma planParse_wellformed (pre mid post : List Char)
    (h1 : backtickChar ∉ pre) (h2 : backtickChar ∉ mid) (h3 : headNoTick post = true) :
    planParse (String.mk (pre ++ (fenceOpen ++ (mid ++ (fenceClose ++ post))))) =
      (match pyLiteralEval (pyStrip (String.mk mid)) with
       | Option.some (PyValue.list vs) => vs
       | _ => []) := by
  obtain ⟨r1, rs, hr⟩ : ∃ r1 rs,
      splitChars fenceOpen (mid ++ (fenceClose ++ post)) = r1 :: rs := by
    cases hc : splitChars fenceOpen (mid ++ (fenceClose ++ post)) with
    | nil => exact absurd hc (splitChars_ne_nil _ _)
    | cons a as => exact ⟨a, as, rfl⟩
  have hr1 : r1 = mid ++ (splitChars fenceOpen (fenceClose ++ post)).headD [] := by
    have hh := splitChars_fenceOpen_headD mid (fenceClose ++ post) h2
    rw [hr] at hh
    simpa using hh
  have hinner : (splitChars fenceClose r1).headD [] = mid := by
    rw [hr1, splitChars_fenceClose_headD mid _ h2]
    rcases fence_head_cases post h3 with hz | ⟨q, hq⟩
    · rw [hz]
      simp [splitChars_nil]
    · rw [hq, splitChars_fenceClose_sep]
      simp
  have houter : pySplit
      (String.mk (pre ++ (fenceOpen ++ (mid ++ (fenceClose ++ post))))) "```python"
      = String.mk pre :: String.mk r1 :: rs.map String.mk := by
    rw [pySplit_mk, toList_fenceOpen, splitChars_fenceOpen_clean pre _ h1, hr]
    simp
  obtain ⟨x, xs, hx⟩ : ∃ x xs, splitChars fenceClose r1 = x :: xs := by
    cases hc : splitChars fenceClose r1 with
    | nil => exact absurd hc (splitChars_ne_nil _ _)
    | cons a as => exact ⟨a, as, rfl⟩
  have hx1 : x = mid := by
    have hh := hinner
    rw [hx] at hh
    simpa using hh
  have hps : pySplit (String.mk r1) "```" = String.mk mid :: xs.map String.mk := by
    rw [pySplit_mk, toList_fenceClose, hx, hx1]
    simp
  unfold planParse
  rw [houter]
  dsimp only
  rw [hps, List.headD_cons]

lemma toolLoop_te_none (llm : List Message → Option String) (i : Nat) (step : String)
    (fuel : Nat) (r h : String) (m : List Message) :
    toolLoop llm Option.none i step fuel r h m = ⟨r, h, m, 0, 0⟩ := by
  cases fuel <;> simp [toolLoop]

lemma toolLoop_exit (llm : List Message → Option String) (te : Option ToolExecutor)
    (i : Nat) (step : String) (fuel : Nat) (r h : String) (m : List Message)
    (hp : parseToolRequest r = Option.none) :
    toolLoop llm te i step fuel r h m = ⟨r, h, m, 0, 0⟩ := by
  cases fuel with
  | zero => simp [toolLoop]
  | succ f =>
    cases te with
    | none => simp [toolLoop]
    | some t => simp [toolLoop, hp]

lemma toolLoop_history_eq (llm : List Message → Option String) (te : Option ToolExecutor)
    (i : Nat) (step : String) :
    ∀ (fuel : Nat) (r h : String) (m : List Message),
      (toolLoop llm te i step fuel r h m).history =
        h ++ joinRecords i step (toolLoopRecs llm te i step fuel r m) := by
  intro fuel
  induction fuel with
  | zero => intro r h m; simp [toolLoop, toolLoopRecs, joinRecords]
  | succ f ih =>
    intro r h m
    cases te with
    | none => simp [toolLoop, toolLoopRecs, joinRecords]
    | some t =>
      cases hp : parseToolRequest r with
      | none => simp [toolLoop, toolLoopRecs, hp, joinRecords]
      | some req =>
        simp only [toolLoop, toolLoopRecs, hp]
        rw [ih]
        simp [joinRecords, String.append_assoc]

lemma toolLoop_msgs_eq (llm : List Message → Option String) (te : Option ToolExecutor)
    (i : Nat) (step : String) :
    ∀ (fuel : Nat) (r h : String) (m : List Message),
      (toolLoop llm te i step fuel r h m).messages =
        m ++ toolLoopMsgs llm te i step fuel r m := by
  intro fuel
  induction fuel with
  | zero => intro r h m; simp [toolLoop, toolLoopMsgs]
  | succ f ih =>
    intro r h m
    cases te with
    | none => simp [toolLoop, toolLoopMsgs]
    | some t =>
      cases hp : parseToolRequest r with
      | none => simp [toolLoop, toolLoopMsgs, hp]
      | some req =>
        simp only [toolLoop, toolLoopMsgs, hp]
        rw [ih]
        simp [List.append_assoc]

lemma toolLoop_counts (llm : List Message → Option String) (te : Option ToolExecutor)
    (i : Nat) (step : String) :
    ∀ (fuel : Nat) (r h : String) (m : List Message),
      (toolLoop llm te i step fuel r h m).calls = (toolLoop llm te i step fuel r h m).iters ∧
      (toolLoop llm te i step fuel r h m).iters ≤ fuel := by
  intro fuel
  induction fuel with
  | zero => intro r h m; simp [toolLoop]
  | succ f ih =>
    intro r h m
    cases te with
    | none => simp [toolLoop]
    | some t =>
      cases hp : parseToolRequest r with
      | none => simp [toolLoop, hp]
      | some req =>
        simp only [toolLoop, hp]
        exact ⟨by rw [(ih _ _ _).1], Nat.succ_le_succ (ih _ _ _).2⟩

lemma toolLoop_full (llm : List Message → Option String) (t : ToolExecutor)
    (i : Nat) (step : String)
    (hall : ∀ msgs : List Message, (parseToolRequest ((llm msgs).getD "")).isSome = true) :
    ∀ (fuel : Nat) (r h : String) (m : List Message),
      (parseToolRequest r).isSome = true →
      (toolLoop llm (Option.some t) i step fuel r h m).iters = fuel := by
  intro fuel
  induction fuel with
  | zero => intro r h m _; simp [toolLoop]
  | succ f ih =>
    intro r h m hr
    obtain ⟨req, hp⟩ : ∃ req, parseToolRequest r = Option.some req := by
      cases hq : parseToolRequest r with
      | none => rw [hq] at hr; simp at hr
      | some req => exact ⟨req, rfl⟩
    simp only [toolLoop, hp]
    rw [ih _ _ _ (hall _)]

lemma toolLoop_last_assistant (llm : List Message → Option String) (te : Option ToolExecutor)
    (i : Nat) (step : String) :
    ∀ (fuel : Nat) (r h : String) (m : List Message),
      (∃ ms0, m = ms0 ++ [⟨"assistant", r⟩]) →
      ∃ ms1, (toolLoop llm te i step fuel r h m).messages =
        ms1 ++ [⟨"assistant", (toolLoop llm te i step fuel r h m).response⟩] := by
  intro fuel
  induction fuel with
  | zero => intro r h m hm; simpa [toolLoop] using hm
  | succ f ih =>
    intro r h m hm
    cases te with
    | none => simpa [toolLoop] using hm
    | some t =>
      cases hp : parseToolRequest r with
      | none => simpa [toolLoop, hp] using hm
      | some req =>
        simp only [toolLoop, hp]
        exact ih _ _ _ ⟨_, rfl⟩

/-- C3: for every step execution where the engine's first completion does
not parse as a valid ToolRequest, the Executor issues exactly one
Completion Engine call and the step's result equals that completion text
verbatim. -/
theorem claim_C3_no_tool_single_call (llm : List Message → Option String)
    (te : Option ToolExecutor) (mti : Nat) (q : String) (pl : List String)
    (hist : String) (i : Nat) (step : String)
    (h : parseToolRequest (firstResponse llm te q pl hist step) = Option.none) :
    (executeStep llm te mti q pl hist i step).engineCalls = 1 ∧
    (executeStep llm te mti q pl hist i step).result = firstResponse llm te q pl hist step := by
  simp only [firstResponse] at h
  simp only [executeStep]
  rw [toolLoop_exit _ _ _ _ _ _ _ _ h]
  exact ⟨rfl, rfl⟩

/-- Witness for C3 on a concrete plain-text engine. -/
theorem claim_C3_witness :
    (executeStep wLlmPlain Option.none 5 "q" ["s"] "" 1 "s").engineCalls = 1 ∧
    (executeStep wLlmPlain Option.none 5 "q" ["s"] "" 1 "s").result = "最终答案文本" := by
  have h := claim_C3_no_tool_single_call wLlmPlain Option.none 5 "q" ["s"] "" 1 "s" (by rfl)
  exact ⟨h.1, by rw [h.2]; rfl⟩

/-- C10: when no Tool Registry is bound, the loop is never entered: one
engine call, the no-tools placeholder is rendered into the prompt, the
first completion is the result verbatim (whether or not it parses as a
ToolRequest), and only the terminal record is appended to History. -/
theorem claim_C10_no_registry (llm : List Message → Option String) (mti : Nat)
    (q : String) (pl : List String) (hist : String) (i : Nat) (step : String) :
    (executeStep llm Option.none mti q pl hist i step).engineCalls = 1 ∧
    (executeStep llm Option.none mti q pl hist i step).toolResolutions = 0 ∧
    (executeStep llm Option.none mti q pl hist i step).result =
      firstResponse llm Option.none q pl hist step ∧
    toolInstructions Option.none = "（当前无可用工具）" ∧
    (executeStep llm Option.none mti q pl hist i step).messages =
      [⟨"user", execPrompt q pl (if hist = "" then "无" else hist) step "（当前无可用工具）"⟩,
       ⟨"assistant", firstResponse llm Option.none q pl hist step⟩] ∧
    (executeStep llm Option.none mti q pl hist i step).history =
      hist ++ stepRecord i step (firstResponse llm Option.none q pl hist step) := by
  simp only [executeStep, firstResponse]
  rw [toolLoop_te_none]
  refine ⟨rfl, rfl, rfl, rfl, ?_, rfl⟩
  simp [toolInstructions]

/-- C8: an absent or empty engine completion is normalized to the empty
string; the empty completion parses as no ToolRequest, so the step
terminates with the empty string as its result after one engine call. -/
theorem claim_C8_absent_completion :
    parseToolRequest "" = Option.none ∧
    ∀ (llm : List Message → Option String) (te : Option ToolExecutor) (mti : Nat)
      (q : String) (pl : List String) (hist : String) (i : Nat) (step : String),
      (llm [⟨"user", execPrompt q pl (if hist = "" then "无" else hist) step
              (toolInstructions te)⟩] = Option.none ∨
       llm [⟨"user", execPrompt q pl (if hist = "" then "无" else hist) step
              (toolInstructions te)⟩] = Option.some "") →
      (executeStep llm te mti q pl hist i step).result = "" ∧
      (executeStep llm te mti q pl hist i step).engineCalls = 1 := by
  refine ⟨rfl, ?_⟩
  intro llm te mti q pl hist i step h
  have hr : (llm [⟨"user", execPrompt q pl (if hist = "" then "无" else hist) step
      (toolInstructions te)⟩]).getD "" = "" := by
    rcases h with h | h <;> rw [h] <;> rfl
  simp only [executeStep, hr]
  rw [toolLoop_exit _ _ _ _ _ "" _ _ rfl]
  exact ⟨rfl, rfl⟩

/-- Witness for C8 on a concrete absent engine. -/
theorem claim_C8_witness :
    (executeStep wLlmNone (Option.some wTe) 5 "q" ["s"] "" 1 "s").result = "" ∧
    (executeStep wLlmNone (Option.some wTe) 5 "q" ["s"] "" 1 "s").engineCalls = 1 :=
  claim_C8_absent_completion.2 wLlmNone (Option.some wTe) 5 "q" ["s"] "" 1 "s" (Or.inl rfl)

/-- C1: per step, the number of Completion Engine invocations is between 1
and `max_tool_iterations + 1`; and when a registry is bound and every
completion parses as a ToolRequest, the loop performs exactly
`max_tool_iterations` tool resolutions, makes exactly
`max_tool_iterations + 1` engine calls (so no further call past the
budget), and the step's result is the text of the last completion (the
final assistant turn). -/
theorem claim_C1_engine_call_budget (llm : List Message → Option String)
    (te : Option ToolExecutor) (mti : Nat) (q : String) (pl : List String)
    (hist : String) (i : Nat) (step : String) :
    (1 ≤ (executeStep llm te mti q pl hist i step).engineCalls ∧
      (executeStep llm te mti q pl hist i step).engineCalls ≤ mti + 1) ∧
    (∀ t, te = Option.some t →
      (∀ msgs : List Message, (parseToolRequest ((llm msgs).getD "")).isSome = true) →
      (executeStep llm te mti q pl hist i step).toolResolutions = mti ∧
      (executeStep llm te mti q pl hist i step).engineCalls = mti + 1 ∧
      ∃ ms, (executeStep llm te mti q pl hist i step).messages =
        ms ++ [⟨"assistant", (executeStep llm te mti q pl hist i step).result⟩]) := by
  constructor
  · simp only [executeStep]
    have hc := toolLoop_counts llm te i step mti
      ((llm [⟨"user", execPrompt q pl (if hist = "" then "无" else hist) step
        (toolInstructions te)⟩]).getD "") hist
      ([⟨"user", execPrompt q pl (if hist = "" then "无" else hist) step
        (toolInstructions te)⟩] ++
       [⟨"assistant", (llm [⟨"user", execPrompt q pl (if hist = "" then "无" else hist) step
        (toolInstructions te)⟩]).getD ""⟩])
    constructor
    · omega
    · omega
  · intro t hte hall
    subst hte
    simp only [executeStep]
    have hfull := toolLoop_full llm t i step hall mti
      ((llm [⟨"user", execPrompt q pl (if hist = "" then "无" else hist) step
        (toolInstructions (Option.some t))⟩]).getD "") hist
      ([⟨"user", execPrompt q pl (if hist = "" then "无" else hist) step
        (toolInstructions (Option.some t))⟩] ++
       [⟨"assistant", (llm [⟨"user", execPrompt q pl (if hist = "" then "无" else hist) step
        (toolInstructions (Option.some t))⟩]).getD ""⟩])
      (hall _)
    have hc := toolLoop_counts llm (Option.some t) i step mti
      ((llm [⟨"user", execPrompt q pl (if hist = "" then "无" else hist) step
        (toolInstructions (Option.some t))⟩]).getD "") hist
      ([⟨"user", execPrompt q pl (if hist = "" then "无" else hist) step
        (toolInstructions (Option.some t))⟩] ++
       [⟨"assistant", (llm [⟨"user", execPrompt q pl (if hist = "" then "无" else hist) step
        (toolInstructions (Option.some t))⟩]).getD ""⟩])
    have hla := toolLoop_last_assistant llm (Option.some t) i step mti
      ((llm [⟨"user", execPrompt q pl (if hist = "" then "无" else hist) step
        (toolInstructions (Option.some t))⟩]).getD "") hist
      ([⟨"user", execPrompt q pl (if hist = "" then "无" else hist) step
        (toolInstructions (Option.some t))⟩] ++
       [⟨"assistant", (llm [⟨"user", execPrompt q pl (if hist = "" then "无" else hist) step
        (toolInstructions (Option.some t))⟩]).getD ""⟩])
      ⟨_, rfl⟩
    exact ⟨hfull, by omega, hla⟩

/-- Witness for C1 on a concrete always-requesting engine with budget 2. -/
theorem claim_C1_witness :
    (executeStep wLlmTool (Option.some wTe) 2 "q" ["s"] "" 1 "s").toolResolutions = 2 ∧
    (executeStep wLlmTool (Option.some wTe) 2 "q" ["s"] "" 1 "s").engineCalls = 3 := by
  have h := (claim_C1_engine_call_budget wLlmTool (Option.some wTe) 2 "q" ["s"] "" 1 "s").2
    wTe rfl (fun msgs => by
      rw [show (wLlmTool msgs).getD "" = wToolText from rfl]
      decide)
  exact ⟨h.1, h.2.1⟩

lemma executeStep_hist (llm : List Message → Option String) (te : Option ToolExecutor)
    (mti : Nat) (q : String) (pl : List String) (hist : String) (i : Nat) (step : String) :
    ∃ x, (executeStep llm te mti q pl hist i step).history = hist ++ x := by
  simp only [executeStep]
  rw [toolLoop_history_eq]
  exact ⟨_, by rw [String.append_assoc]⟩

lemma executeSteps_hist_mono (llm : List Message → Option String) (te : Option ToolExecutor)
    (mti : Nat) (q : String) (pl : List String) :
    ∀ (steps : List (Nat × String)) (hist fin : String),
      ∃ t, (executeSteps llm te mti q pl steps hist fin).2 = hist ++ t := by
  intro steps
  induction steps with
  | nil =>
    intro hist fin
    exact ⟨"", by simp [executeSteps]⟩
  | cons p rest ih =>
    intro hist fin
    obtain ⟨i, step⟩ := p
    simp only [executeSteps]
    obtain ⟨x, hx⟩ := executeStep_hist llm te mti q pl hist i step
    obtain ⟨t2, ht2⟩ := ih (executeStep llm te mti q pl hist i step).history
      (executeStep llm te mti q pl hist i step).result
    exact ⟨x ++ t2, by rw [ht2, hx, String.append_assoc]⟩

/-- C9: History is append-only. Every pass of the tool-resolution loop
appends exactly the tool records (step index, step text, tool name,
observation) of its iterations; a completed step appends those records and
the terminal record (step index, step text, result); across a run the
History only ever grows, so its length is monotonically non-decreasing. -/
theorem claim_C9_history_append_only :
    (∀ (llm : List Message → Option String) (te : Option ToolExecutor) (i : Nat)
       (step : String) (fuel : Nat) (r h : String) (m : List Message),
      (toolLoop llm te i step fuel r h m).history =
        h ++ joinRecords i step (toolLoopRecs llm te i step fuel r m)) ∧
    (∀ (llm : List Message → Option String) (te : Option ToolExecutor) (mti : Nat)
       (q : String) (pl : List String) (hist : String) (i : Nat) (step : String),
      ∃ recs, (executeStep llm te mti q pl hist i step).history =
        hist ++ (joinRecords i step recs ++
          stepRecord i step (executeStep llm te mti q pl hist i step).result)) ∧
    (∀ (llm : List Message → Option String) (te : Option ToolExecutor) (mti : Nat)
       (q : String) (pl : List String) (steps : List (Nat × String)) (hist fin : String),
      ∃ t, (executeSteps llm te mti q pl steps hist fin).2 = hist ++ t) ∧
    (∀ (llm : List Message → Option String) (te : Option ToolExecutor) (mti : Nat)
       (q : String) (pl : List String) (steps : List (Nat × String)) (hist fin : String),
      hist.length ≤ (executeSteps llm te mti q pl steps hist fin).2.length) := by
  refine ⟨fun llm te i step fuel r h m => toolLoop_history_eq llm te i step fuel r h m,
    ?_, fun llm te mti q pl steps hist fin => executeSteps_hist_mono llm te mti q pl steps hist fin,
    ?_⟩
  · intro llm te mti q pl hist i step
    refine ⟨toolLoopRecs llm te i step mti
      ((llm [⟨"user", execPrompt q pl (if hist = "" then "无" else hist) step
        (toolInstructions te)⟩]).getD "")
      ([⟨"user", execPrompt q pl (if hist = "" then "无" else hist) step
        (toolInstructions te)⟩] ++
       [⟨"assistant", (llm [⟨"user", execPrompt q pl (if hist = "" then "无" else hist) step
        (toolInstructions te)⟩]).getD ""⟩]), ?_⟩
    simp only [executeStep]
    rw [toolLoop_history_eq, String.append_assoc]
  · intro llm te mti q pl steps hist fin
    obtain ⟨t, ht⟩ := executeSteps_hist_mono llm te mti q pl steps hist fin
    rw [ht]
    simp [String.length_append]

/-- C2: for every engine response containing a well-formed fenced block (a
first opening fence preceded by backtick-free text, a backtick-free body,
and a closing fence not followed immediately by another backtick) whose
stripped body literal-parses as a list of strings, `Planner.plan` returns
exactly that ordered sequence of strings. -/
theorem claim_C2_plan_wellformed (llm : List Message → Option String) (question : String)
    (pre mid post : List Char) (xs : List String)
    (h1 : backtickChar ∉ pre) (h2 : backtickChar ∉ mid) (h3 : headNoTick post = true)
    (h4 : pyLiteralEval (pyStrip (String.mk mid)) =
      Option.some (PyValue.list (xs.map PyValue.str)))
    (h5 : llm [⟨"user", plannerPrompt question⟩] =
      Option.some (String.mk (pre ++ (fenceOpen ++ (mid ++ (fenceClose ++ post)))))) :
    plan llm question = xs.map PyValue.str := by
  unfold plan
  rw [h5]
  rw [show (Option.some (String.mk (pre ++ (fenceOpen ++ (mid ++ (fenceClose ++ post)))))).getD ""
      = String.mk (pre ++ (fenceOpen ++ (mid ++ (fenceClose ++ post)))) from rfl]
  rw [planParse_wellformed pre mid post h1 h2 h3, h4]

/-- Witness for C2 on a concrete well-formed planner response. -/
theorem claim_C2_witness : plan wLlmPlan "问题" = List.map PyValue.str ["a", "b"] :=
  claim_C2_plan_wellformed wLlmPlan "问题" wPre wMid wPost ["a", "b"]
    (by decide) (by decide) (by decide) rfl rfl

/-- C6: `Planner.plan` never raises past its own boundary (the embedding
is total); the empty plan is returned whenever the opening fence marker is
absent, whenever the fenced body fails to parse as a literal, and whenever
it parses to a non-list value. -/
theorem claim_C6_plan_empty_on_failure :
    (∀ response : String, occursIn fenceOpen response.toList = false →
      planParse response = []) ∧
    (∀ pre mid post : List Char, backtickChar ∉ pre → backtickChar ∉ mid →
      headNoTick post = true →
      pyLiteralEval (pyStrip (String.mk mid)) = Option.none →
      planParse (String.mk (pre ++ (fenceOpen ++ (mid ++ (fenceClose ++ post))))) = []) ∧
    (∀ (pre mid post : List Char) (v : PyValue), backtickChar ∉ pre → backtickChar ∉ mid →
      headNoTick post = true →
      pyLiteralEval (pyStrip (String.mk mid)) = Option.some v →
      (∀ vs, v ≠ PyValue.list vs) →
      planParse (String.mk (pre ++ (fenceOpen ++ (mid ++ (fenceClose ++ post))))) = []) := by
  refine ⟨?_, ?_, ?_⟩
  · intro response h
    unfold planParse
    rw [show pySplit response "```python"
        = (splitChars fenceOpen response.toList).map String.mk from rfl]
    rw [splitChars_of_not_occurs _ _ h]
    rfl
  · intro pre mid post h1 h2 h3 he
    rw [planParse_wellformed pre mid post h1 h2 h3, he]
  · intro pre mid post v h1 h2 h3 he hnl
    rw [planParse_wellformed pre mid post h1 h2 h3, he]
    cases v with
    | list vs => exact absurd rfl (hnl vs)
    | str s => rfl
    | int n => rfl
    | bool b => rfl
    | none => rfl
    | dict es => rfl

/-- Witness for C6 on concrete failing responses: no fence, a malformed
literal, and a non-list literal. -/
theorem claim_C6_witness :
    planParse "没有代码块" = [] ∧
    planParse (String.mk ([] ++ (fenceOpen ++ (" not a list ".toList ++ (fenceClose ++ []))))) = [] ∧
    planParse (String.mk ([] ++ (fenceOpen ++ ("123".toList ++ (fenceClose ++ []))))) = [] := by
  refine ⟨claim_C6_plan_empty_on_failure.1 "没有代码块" (by decide),
    claim_C6_plan_empty_on_failure.2.1 [] (" not a list ".toList) [] (by decide) (by decide)
      (by decide) rfl,
    claim_C6_plan_empty_on_failure.2.2 [] ("123".toList) [] (PyValue.int 123) (by decide)
      (by decide) (by decide) rfl (fun vs hv => PyValue.noConfusion hv)⟩

/-- C4: ToolRequest parsing attempts strict JSON parsing first, falls back
to literal-expression parsing only on JSON failure, and accepts exactly
the values passing `acceptToolData` (a dict with both a `tool` and an
`input` key and a non-empty trimmed tool name); a completion that fails
this is treated as no tool requested: the loop exits and the completion
text is the step's result, not an error. -/
theorem claim_C4_parse_layering :
    (∀ (text : String) (d : PyValue), jsonParse text = Option.some d →
      parseToolRequest text = acceptToolData d) ∧
    (∀ text : String, jsonParse text = Option.none →
      parseToolRequest text =
        (match pyLiteralEval text with
         | Option.none => Option.none
         | Option.some d => acceptToolData d)) ∧
    (∀ (llm : List Message → Option String) (te : Option ToolExecutor) (mti : Nat)
       (q : String) (pl : List String) (hist : String) (i : Nat) (step : String),
      parseToolRequest (firstResponse llm te q pl hist step) = Option.none →
      (executeStep llm te mti q pl hist i step).result = firstResponse llm te q pl hist step ∧
      (executeStep llm te mti q pl hist i step).engineCalls = 1) := by
  refine ⟨?_, ?_, ?_⟩
  · intro text d hj
    by_cases ht : text = ""
    · subst ht
      rw [show jsonParse "" = (Option.none : Option PyValue) from rfl] at hj
      exact Option.noConfusion hj
    · unfold parseToolRequest
      rw [if_neg ht, hj]
      cases d <;> rfl
  · intro text hj
    by_cases ht : text = ""
    · subst ht
      rfl
    · unfold parseToolRequest
      rw [if_neg ht, hj]
      cases hl : pyLiteralEval text with
      | none => rfl
      | some d => cases d <;> rfl
  · intro llm te mti q pl hist i step h
    simp only [firstResponse] at h
    simp only [executeStep]
    rw [toolLoop_exit _ _ _ _ _ _ _ _ h]
    exact ⟨rfl, rfl⟩

/-- Witness for C4: a JSON tool request, a Python-literal fallback
request, and a plain-text completion accepted as the step's answer. -/
theorem claim_C4_witness :
    parseToolRequest wToolText = acceptToolData
      (PyValue.dict [(PyValue.str "tool", PyValue.str "Search"),
                     (PyValue.str "input", PyValue.str "X")]) ∧
    parseToolRequest wSingleQuoteText =
      (match pyLiteralEval wSingleQuoteText with
       | Option.none => Option.none
       | Option.some d => acceptToolData d) ∧
    ((executeStep wLlmPlain Option.none 3 "q" ["s"] "" 1 "s").result =
      firstResponse wLlmPlain Option.none "q" ["s"] "" "s" ∧
     (executeStep wLlmPlain Option.none 3 "q" ["s"] "" 1 "s").engineCalls = 1) :=
  ⟨claim_C4_parse_layering.1 wToolText _ rfl,
   claim_C4_parse_layering.2.1 wSingleQuoteText rfl,
   claim_C4_parse_layering.2.2 wLlmPlain Option.none 3 "q" ["s"] "" 1 "s" rfl⟩

lemma toolLoop_succ_parse (llm : List Message → Option String) (t : ToolExecutor)
    (i : Nat) (step : String) (fuel : Nat) (r h : String) (m : List Message)
    (req : ToolRequest) (hp : parseToolRequest r = Option.some req)
    (hg : getTool t req.tool = Option.none) :
    toolLoop llm (Option.some t) i step (Nat.succ fuel) r h m =
      (let m2 := m ++ [⟨"user", obsMessage req.tool (unregisteredObs req.tool)⟩]
       let r2 := (llm m2).getD ""
       let out := toolLoop llm (Option.some t) i step fuel r2
         (h ++ toolRecord i step req.tool (unregisteredObs req.tool)) (m2 ++ [⟨"assistant", r2⟩])
       (⟨out.response, out.history, out.messages, out.iters + 1, out.calls + 1⟩ : LoopOut)) := by
  simp only [toolLoop, hp, hg]

lemma toolLoopMsgs_succ_parse (llm : List Message → Option String) (t : ToolExecutor)
    (i : Nat) (step : String) (fuel : Nat) (r : String) (m : List Message)
    (req : ToolRequest) (hp : parseToolRequest r = Option.some req)
    (hg : getTool t req.tool = Option.none) :
    toolLoopMsgs llm (Option.some t) i step (Nat.succ fuel) r m =
      ⟨"user", obsMessage req.tool (unregisteredObs req.tool)⟩ ::
      ⟨"assistant", (llm (m ++ [⟨"user", obsMessage req.tool (unregisteredObs req.tool)⟩])).getD ""⟩ ::
      toolLoopMsgs llm (Option.some t) i step fuel
        ((llm (m ++ [⟨"user", obsMessage req.tool (unregisteredObs req.tool)⟩])).getD "")
        ((m ++ [⟨"user", obsMessage req.tool (unregisteredObs req.tool)⟩]) ++
         [⟨"assistant", (llm (m ++ [⟨"user",
            obsMessage req.tool (unregisteredObs req.tool)⟩])).getD ""⟩]) := by
  simp only [toolLoopMsgs, hp, hg]

/-- C5: when a parsed ToolRequest names an unregistered tool, the
observation is the fixed error message naming that tool, the loop does not
abort (a further engine call is made, so at least two in the step), the
resolution counts as a completed iteration, the error record is appended
to History, and the error observation is fed back to the engine as a new
user turn. -/
theorem claim_C5_unregistered_tool (llm : List Message → Option String) (t : ToolExecutor)
    (mti : Nat) (q : String) (pl : List String) (hist : String) (i : Nat) (step : String)
    (req : ToolRequest)
    (h1 : parseToolRequest (firstResponse llm (Option.some t) q pl hist step) = Option.some req)
    (h2 : getTool t req.tool = Option.none)
    (h3 : 1 ≤ mti) :
    1 ≤ (executeStep llm (Option.some t) mti q pl hist i step).toolResolutions ∧
    2 ≤ (executeStep llm (Option.some t) mti q pl hist i step).engineCalls ∧
    (∃ hrest, (executeStep llm (Option.some t) mti q pl hist i step).history =
      hist ++ (toolRecord i step req.tool (unregisteredObs req.tool) ++ hrest)) ∧
    (⟨"user", obsMessage req.tool (unregisteredObs req.tool)⟩ : Message) ∈
      (executeStep llm (Option.some t) mti q pl hist i step).messages := by
  obtain ⟨f, rfl⟩ : ∃ f, mti = f + 1 := ⟨mti - 1, by omega⟩
  simp only [firstResponse] at h1
  refine ⟨?_, ?_, ?_, ?_⟩
  · simp only [executeStep]
    rw [toolLoop_succ_parse llm t i step f _ _ _ req h1 h2]
    dsimp only
    omega
  · simp only [executeStep]
    rw [toolLoop_succ_parse llm t i step f _ _ _ req h1 h2]
    dsimp only
    omega
  · simp only [executeStep]
    rw [toolLoop_succ_parse llm t i step f _ _ _ req h1 h2]
    dsimp only
    rw [toolLoop_history_eq]
    exact ⟨_, by rw [String.append_assoc, String.append_assoc]⟩
  · simp only [executeStep, firstResponse]
    rw [toolLoop_msgs_eq, toolLoopMsgs_succ_parse llm t i step f _ _ req h1 h2]
    simp

/-- Witness for C5 on a concrete run requesting the unregistered tool
Foo. -/
theorem claim_C5_witness :
    1 ≤ (executeStep wLlmFoo (Option.some wTe) 5 "q" ["s"] "" 1 "s").toolResolutions ∧
    2 ≤ (executeStep wLlmFoo (Option.some wTe) 5 "q" ["s"] "" 1 "s").engineCalls := by
  have h := claim_C5_unregistered_tool wLlmFoo wTe 5 "q" ["s"] "" 1 "s" ⟨"Foo", "X"⟩
    rfl rfl (by omega)
  exact ⟨h.1, h.2.1⟩

/-- Counterexample to C7: a completion that is a single JSON object
carrying the additional key `extra` beyond `tool` and `input` is
nevertheless accepted as a ToolRequest, so acceptance does not require
exactly the keys `tool` and `input`. -/
theorem claim_C7_counterexample :
    jsonParse wExtraText = Option.some (PyValue.dict
      [(PyValue.str "tool", PyValue.str "Search"),
       (PyValue.str "input", PyValue.str "X"),
       (PyValue.str "extra", PyValue.str "Y")]) ∧
    parseToolRequest wExtraText = Option.some ⟨"Search", "X"⟩ :=
  ⟨rfl, rfl⟩

lemma acceptToolData_some {d : PyValue} {req : ToolRequest}
    (h : acceptToolData d = Option.some req) :
    ∃ es tv iv, d = PyValue.dict es ∧
      dictLookup es (PyValue.str "tool") = Option.some tv ∧
      dictLookup es (PyValue.str "input") = Option.some iv ∧
      pyStrip (pyStr tv) ≠ "" := by
  cases d with
  | dict es =>
    simp only [acceptToolData] at h
    cases hT : dictLookup es (PyValue.str "tool") with
    | none =>
      rw [hT] at h
      exact Option.noConfusion h
    | some tv =>
      cases hI : dictLookup es (PyValue.str "input") with
      | none =>
        rw [hT, hI] at h
        exact Option.noConfusion h
      | some iv =>
        rw [hT, hI] at h
        by_cases hne : pyStrip (pyStr tv) = ""
        · rw [show (match Option.some tv, Option.some iv with
            | Option.some tv, Option.some iv =>
              if pyStrip (pyStr tv) = "" then Option.none
              else Option.some (⟨pyStrip (pyStr tv), pyStr iv⟩ : ToolRequest)
            | _, _ => Option.none) =
              (if pyStrip (pyStr tv) = "" then Option.none
               else Option.some (⟨pyStrip (pyStr tv), pyStr iv⟩ : ToolRequest)) from rfl,
            if_pos hne] at h
          exact Option.noConfusion h
        · exact ⟨es, tv, iv, rfl, hT, hI, hne⟩
  | str s => exact Option.noConfusion h
  | int n => exact Option.noConfusion h
  | bool b => exact Option.noConfusion h
  | none => exact Option.noConfusion h
  | list vs => exact Option.noConfusion h

/-- C7 (amended): a completion is accepted as a tool-request exactly when
it parses — strict JSON first, Python-literal fallback on JSON failure,
surrounding whitespace tolerated by both parsers — to a mapping containing
at least the keys `tool` and `input` (additional keys tolerated) whose
stringified tool name is non-empty after trimming. -/
theorem claim_C7_accepted_iff (text : String) :
    (∃ req, parseToolRequest text = Option.some req) ↔
    (∃ d, ((jsonParse text = Option.some d) ∨
        (jsonParse text = Option.none ∧ pyLiteralEval text = Option.some d)) ∧
      ∃ es tv iv, d = PyValue.dict es ∧
        dictLookup es (PyValue.str "tool") = Option.some tv ∧
        dictLookup es (PyValue.str "input") = Option.some iv ∧
        pyStrip (pyStr tv) ≠ "") := by
  constructor
  · rintro ⟨req, hreq⟩
    by_cases ht : text = ""
    · subst ht
      rw [show parseToolRequest "" = (Option.none : Option ToolRequest) from rfl] at hreq
      exact Option.noConfusion hreq
    · unfold parseToolRequest at hreq
      rw [if_neg ht] at hreq
      cases hj : jsonParse text with
      | some d =>
        rw [hj] at hreq
        exact ⟨d, Or.inl rfl, acceptToolData_some (show acceptToolData d = Option.some req from hreq)⟩
      | none =>
        rw [hj] at hreq
        cases hl : pyLiteralEval text with
        | none =>
          rw [show (match (Option.none : Option PyValue) with
              | Option.some d => Option.some d
              | Option.none => pyLiteralEval text) = pyLiteralEval text from rfl, hl] at hreq
          exact Option.noConfusion hreq
        | some d =>
          rw [show (match (Option.none : Option PyValue) with
              | Option.some d => Option.some d
              | Option.none => pyLiteralEval text) = pyLiteralEval text from rfl, hl] at hreq
          exact ⟨d, Or.inr ⟨rfl, rfl⟩,
            acceptToolData_some (show acceptToolData d = Option.some req from hreq)⟩
  · rintro ⟨d, hparse, es, tv, iv, rfl, hT, hI, hne⟩
    have ht : text ≠ "" := by
      intro h
      subst h
      rcases hparse with hj | ⟨hj, hl⟩
      · rw [show jsonParse "" = (Option.none : Option PyValue) from rfl] at hj
        exact Option.noConfusion hj
      · rw [show pyLiteralEval "" = (Option.none : Option PyValue) from rfl] at hl
        exact Option.noConfusion hl
    refine ⟨⟨pyStrip (pyStr tv), pyStr iv⟩, ?_⟩
    unfold parseToolRequest
    rw [if_neg ht]
    rcases hparse with hj | ⟨hj, hl⟩
    · rw [hj]
      show acceptToolData (PyValue.dict es) = _
      simp only [acceptToolData]
      rw [hT, hI]
      show (if pyStrip (pyStr tv) = "" then Option.none
        else Option.some (⟨pyStrip (pyStr tv), pyStr iv⟩ : ToolRequest)) = _
      rw [if_neg hne]
    · rw [hj, hl]
      show acceptToolData (PyValue.dict es) = _
      simp only [acceptToolData]
      rw [hT, hI]
      show (if pyStrip (pyStr tv) = "" then Option.none
        else Option.some (⟨pyStrip (pyStr tv), pyStr iv⟩ : ToolRequest)) = _
      rw [if_neg hne]
